import Mathlib

/-!
Verification of the QUBO-conversion pipeline described by the repository's
tutorial notebook (`docs/tutorials/advanced/aqua/optimization/1_optimization_problems.ipynb`).
The converters themselves (`InequalityToEqualityConverter`,
`IntegerToBinaryConverter`, `PenalizeLinearEqualityConstraints`,
`OptimizationProblemToQubo`) are library components invoked by the notebook
but not present in the repository; they are modelled here from the
specification's component design, and validated against the concrete
transcripts printed in the notebook.
-/

namespace QiskitOpt

/-- Kind of a decision variable (`B`/`I`/`C` in the notebook). -/
inductive VarKind where
  | binary
  | integer
  | continuous
  deriving DecidableEq, Repr

/-- Modelled from the spec: a variable has a unique name, a kind and
rational bounds. -/
structure Variable where
  name : String
  kind : VarKind
  lb : ℚ
  ub : ℚ
  deriving DecidableEq, Repr

/-- Constraint relational operator (`L`/`E`/`G` senses of the notebook). -/
inductive CSense where
  | le
  | eq
  | ge
  deriving DecidableEq, Repr

/-- Optimization sense; the notebook's `set_sense(-1)` selects maximize. -/
inductive ObjSense where
  | minimize
  | maximize
  deriving DecidableEq, Repr

/-- A linear expression: list of (variable name, coefficient) pairs. -/
abbrev Lin := List (String × ℚ)

/-- Modelled from the spec: a linear constraint row. -/
structure Constraint where
  name : String
  lin : Lin
  sense : CSense
  rhs : ℚ
  deriving DecidableEq, Repr

/-- Modelled from the spec: quadratic expression = quadratic term list,
linear part, and a constant. -/
structure QuadExpr where
  quad : List (String × String × ℚ)
  lin : Lin
  const : ℚ
  deriving DecidableEq, Repr

/-- Modelled from the spec: the model container (`OptimizationProblem` /
`QuadraticProgram`). -/
structure Model where
  vars : List Variable
  objSense : ObjSense
  objective : QuadExpr
  constraints : List Constraint
  deriving DecidableEq, Repr

/-- An assignment of rational values to variable names. -/
abbrev Assign := String → ℚ

/-- Value of a linear expression under an assignment. -/
def evalLin (lin : Lin) (a : Assign) : ℚ :=
  (lin.map (fun t => t.2 * a t.1)).sum

/-- Value of a quadratic term list under an assignment. -/
def evalQuadTerms (qs : List (String × String × ℚ)) (a : Assign) : ℚ :=
  (qs.map (fun t => t.2.2 * a t.1 * a t.2.1)).sum

/-- Value of a quadratic expression under an assignment. -/
def QuadExpr.eval (e : QuadExpr) (a : Assign) : ℚ :=
  evalQuadTerms e.quad a + evalLin e.lin a + e.const

/-- A variable is respected by an assignment: value within bounds, binary
variables take value 0 or 1, integer variables take integral values. -/
def Variable.feasible (v : Variable) (a : Assign) : Prop :=
  v.lb ≤ a v.name ∧ a v.name ≤ v.ub ∧
    (v.kind = VarKind.binary → a v.name = 0 ∨ a v.name = 1) ∧
    (v.kind = VarKind.integer → (a v.name).den = 1)

instance (v : Variable) (a : Assign) : Decidable (v.feasible a) := by
  unfold Variable.feasible
  infer_instance

/-- A constraint is satisfied by an assignment. -/
def Constraint.sat (c : Constraint) (a : Assign) : Prop :=
  match c.sense with
  | CSense.le => evalLin c.lin a ≤ c.rhs
  | CSense.eq => evalLin c.lin a = c.rhs
  | CSense.ge => c.rhs ≤ evalLin c.lin a

instance (c : Constraint) (a : Assign) : Decidable (c.sat a) := by
  unfold Constraint.sat
  rcases c with ⟨n, l, s, r⟩
  cases s <;> {
    simp only
    infer_instance
  }

/-- Feasibility for a whole model: every variable respected and every
constraint satisfied. -/
def Model.feasible (m : Model) (a : Assign) : Prop :=
  (∀ v ∈ m.vars, v.feasible a) ∧ ∀ c ∈ m.constraints, c.sat a

instance (m : Model) (a : Assign) : Decidable (m.feasible a) := by
  unfold Model.feasible
  infer_instance

/-! ## Bounded-coefficient encoding (IntegerToBinaryConverter) -/

/-- Modelled from the spec: the bounded-coefficient encoding of arXiv
1706.01945 Eq. (5), used by the missing `IntegerToBinaryConverter`.  For an
integer variable with bounds `[0, U]` it chooses `k = ceil(log2 (U+1))`
binary variables with coefficients `1, 2, 4, ..., 2^(k-2), U+1-2^(k-1)`. -/
def bcCoeffs (U : ℕ) : List ℕ :=
  let k := Nat.clog 2 (U + 1)
  if k = 0 then []
  else ((List.range (k - 1)).map (fun i => 2 ^ i)) ++ [U + 1 - 2 ^ (k - 1)]

/-- The set of subset sums of a list of coefficients. -/
def subsetSums : List ℕ → Finset ℕ
  | [] => {0}
  | c :: cs => subsetSums cs ∪ (subsetSums cs).image (· + c)

theorem subsetSums_concat (xs : List ℕ) (c : ℕ) :
    subsetSums (xs ++ [c]) = subsetSums xs ∪ (subsetSums xs).image (· + c) := by
  induction xs with
  | nil => rfl
  | cons x xs ih =>
    have hcomm : ∀ S : Finset ℕ,
        (S.image (· + c)).image (· + x) = (S.image (· + x)).image (· + c) := by
      intro S
      rw [Finset.image_image, Finset.image_image]
      congr 1
      funext n
      simp [Function.comp, Nat.add_right_comm]
    show subsetSums (xs ++ [c]) ∪ (subsetSums (xs ++ [c])).image (· + x) =
      (subsetSums xs ∪ (subsetSums xs).image (· + x)) ∪
        (subsetSums xs ∪ (subsetSums xs).image (· + x)).image (· + c)
    rw [ih, Finset.image_union, Finset.image_union, hcomm]
    ext n
    simp only [Finset.mem_union]
    tauto

theorem subsetSums_pows (m : ℕ) :
    subsetSums ((List.range m).map (fun i => 2 ^ i)) = Finset.range (2 ^ m) := by
  induction m with
  | zero =>
    ext n
    simp [subsetSums]
  | succ m ih =>
    rw [List.range_succ, List.map_append, List.map_singleton, subsetSums_concat, ih]
    ext n
    simp only [Finset.mem_union, Finset.mem_image, Finset.mem_range, Nat.pow_succ]
    constructor
    · rintro (h | ⟨b, hb, rfl⟩) <;> omega
    · intro h
      by_cases hn : n < 2 ^ m
      · exact Or.inl hn
      · exact Or.inr ⟨n - 2 ^ m, by omega, by omega⟩

theorem bcCoeffs_length (U : ℕ) : (bcCoeffs U).length = Nat.clog 2 (U + 1) := by
  unfold bcCoeffs
  by_cases h : Nat.clog 2 (U + 1) = 0
  · simp [h]
  · rw [if_neg h]
    simp only [List.length_append, List.length_map, List.length_range,
      List.length_singleton]
    omega

theorem bcCoeffs_cover (U : ℕ) : subsetSums (bcCoeffs U) = Finset.range (U + 1) := by
  unfold bcCoeffs
  by_cases h : Nat.clog 2 (U + 1) = 0
  · have hU : U = 0 := by
      rcases Nat.lt_or_ge U 1 with hU | hU
      · omega
      · exfalso
        have := Nat.clog_pos (b := 2) (n := U + 1) (by norm_num) (by omega)
        omega
    subst hU
    rw [if_pos h]
    rfl
  · rw [if_neg h]
    have hU1 : 1 ≤ U := by
      by_contra hU
      have : U = 0 := by omega
      subst this
      exact h (Nat.clog_of_right_le_one (by norm_num) 2)
    have hk1 : 1 ≤ Nat.clog 2 (U + 1) := Nat.pos_of_ne_zero h
    have hlow : 2 ^ (Nat.clog 2 (U + 1) - 1) < U + 1 :=
      Nat.pow_pred_clog_lt_self (by norm_num) (by omega)
    have hhigh : U + 1 ≤ 2 ^ Nat.clog 2 (U + 1) := Nat.le_pow_clog (by norm_num) _
    have hpow : 2 ^ Nat.clog 2 (U + 1) = 2 * 2 ^ (Nat.clog 2 (U + 1) - 1) := by
      conv_lhs => rw [show Nat.clog 2 (U + 1) = (Nat.clog 2 (U + 1) - 1) + 1 by omega]
      rw [Nat.pow_succ]
      ring
    rw [subsetSums_concat, subsetSums_pows]
    ext n
    simp only [Finset.mem_union, Finset.mem_image, Finset.mem_range]
    constructor
    · rintro (hn | ⟨b, hb, rfl⟩) <;> omega
    · intro hn
      by_cases hsmall : n < 2 ^ (Nat.clog 2 (U + 1) - 1)
      · exact Or.inl hsmall
      · exact Or.inr ⟨n - (U + 1 - 2 ^ (Nat.clog 2 (U + 1) - 1)), by omega, by omega⟩

theorem bcCoeffs_sum (U : ℕ) : (bcCoeffs U).sum = U := by
  have hpows : ∀ m : ℕ, ((List.range m).map (fun i => 2 ^ i)).sum = 2 ^ m - 1 := by
    intro m
    induction m with
    | zero => rfl
    | succ m ih =>
      rw [List.range_succ, List.map_append, List.sum_append, ih]
      have h1 : 1 ≤ 2 ^ m := Nat.one_le_two_pow
      have h2 : 2 ^ (m + 1) = 2 ^ m * 2 := by rw [Nat.pow_succ]
      simp only [List.map_singleton, List.sum_singleton, List.map_cons, List.map_nil,
        List.sum_cons, List.sum_nil]
      omega
  unfold bcCoeffs
  by_cases h : Nat.clog 2 (U + 1) = 0
  · have hU : U = 0 := by
      rcases Nat.lt_or_ge U 1 with hU | hU
      · omega
      · exfalso
        have := Nat.clog_pos (b := 2) (n := U + 1) (by norm_num) (by omega)
        omega
    simp [h, hU]
  · have hk1 : 1 ≤ Nat.clog 2 (U + 1) := Nat.pos_of_ne_zero h
    have hlow : 2 ^ (Nat.clog 2 (U + 1) - 1) < U + 1 := by
      apply Nat.pow_pred_clog_lt_self (by norm_num)
      by_contra hU
      have : U = 0 := by omega
      subst this
      exact h (Nat.clog_of_right_le_one (by norm_num) 2)
    rw [if_neg h]
    rw [List.sum_append, hpows]
    simp only [List.sum_cons, List.sum_nil]
    have h1 : 1 ≤ 2 ^ (Nat.clog 2 (U + 1) - 1) := Nat.one_le_two_pow
    omega

/-! ## IntegerToBinaryConverter: encode, substitution, decode -/

/-- Encoding record: each original integer variable name mapped to the list
of (binary replacement name, coefficient) pairs created for it. -/
abbrev EncRecord := List (String × List (String × ℚ))

/-- Replacement list for a record key, if present. -/
def repsOf : EncRecord → String → Option (List (String × ℚ))
  | [], _ => none
  | e :: es, x => if e.1 = x then some e.2 else repsOf es x

/-- Replacement list, defaulting to the variable itself with coefficient 1. -/
def repsOrSelf (rc : EncRecord) (x : String) : List (String × ℚ) :=
  match repsOf rc x with
  | none => [(x, 1)]
  | some reps => reps

/-- Upper bound of an integer variable read as a natural number. -/
def intUB (v : Variable) : ℕ :=
  v.ub.num.toNat

/-- Binary replacement pairs `(name@i, coefficient)` for coefficients `cs`,
starting at index `i`. -/
def repsAux (base : String) (i : ℕ) : List ℕ → List (String × ℚ)
  | [] => []
  | c :: cs => (base ++ "@" ++ toString i, (c : ℚ)) :: repsAux base (i + 1) cs

/-- Modelled from the spec: the binary replacements of an integer variable,
one per bounded-coefficient of `bcCoeffs`. -/
def varReps (v : Variable) : List (String × ℚ) :=
  repsAux v.name 0 (bcCoeffs (intUB v))

/-- Record created by `IntegerToBinaryConverter.encode`: one entry per
integer variable, in declaration order. -/
def mkRecord : List Variable → EncRecord
  | [] => []
  | v :: vs =>
    (if v.kind = VarKind.integer then [(v.name, varReps v)] else []) ++ mkRecord vs

/-- Substitute binary replacements into a linear expression: a term over an
encoded integer variable becomes the scaled terms over its binaries. -/
def substLin (rc : EncRecord) : Lin → Lin
  | [] => []
  | t :: ts =>
    (match repsOf rc t.1 with
      | none => [t]
      | some reps => reps.map (fun r => (r.1, t.2 * r.2))) ++ substLin rc ts

/-- All products of terms of two linear expressions, scaled by `s`:
used both to substitute into quadratic terms and to square a constraint
row for penalization. -/
def crossTerms (s : ℚ) : Lin → Lin → List (String × String × ℚ)
  | [], _ => []
  | t :: ts, l2 => l2.map (fun u => (t.1, u.1, s * t.2 * u.2)) ++ crossTerms s ts l2

/-- Substitute binary replacements into a quadratic term list. -/
def substQuad (rc : EncRecord) : List (String × String × ℚ) → List (String × String × ℚ)
  | [] => []
  | t :: ts => crossTerms t.2.2 (repsOrSelf rc t.1) (repsOrSelf rc t.2.1) ++ substQuad rc ts

/-- A fresh binary variable introduced by the encoding. -/
def mkBinVar (x : String) : Variable :=
  { name := x, kind := VarKind.binary, lb := 0, ub := 1 }

/-- Variable list after encoding: integer variables are replaced in place by
their binary replacements; all other variables are kept. -/
def expandVars : List Variable → List Variable
  | [] => []
  | v :: vs =>
    (if v.kind = VarKind.integer then (varReps v).map (fun r => mkBinVar r.1) else [v]) ++
      expandVars vs

/-- State held by the converter between `encode` and `decode`. -/
structure IntEncState where
  original : Model
  encoded : Model
  rc : EncRecord
  deriving DecidableEq, Repr

namespace IntegerToBinaryConverter

/-- Modelled from the spec: `IntegerToBinaryConverter.encode` (missing from
the repository; only its invocation and printed output appear).  Every
integer variable of bounds `[0, U]` is replaced by binary variables with
the bounded-coefficient weights, and every occurrence in the objective and
the constraints is rewritten to the weighted sum of the replacements. -/
def encode (m : Model) : IntEncState :=
  let rc := mkRecord m.vars
  { original := m
    encoded :=
      { vars := expandVars m.vars
        objSense := m.objSense
        objective :=
          { quad := substQuad rc m.objective.quad
            lin := substLin rc m.objective.lin
            const := m.objective.const }
        constraints := m.constraints.map
          (fun c => { name := c.name, lin := substLin rc c.lin, sense := c.sense, rhs := c.rhs }) }
    rc := rc }

end IntegerToBinaryConverter

/-- Decoded assignment: an encoded integer variable is recomputed as the
weighted sum of its binary replacements; other variables pass through. -/
def decodeAssign (rc : EncRecord) (a : Assign) : Assign :=
  fun x =>
    match repsOf rc x with
    | none => a x
    | some reps => evalLin reps a

/-- Conversion failures (spec section 7). -/
inductive ConvError where
  | unsupportedConstraint
  | decodeMismatch
  deriving DecidableEq, Repr

/-- First value associated to a name, 0 when absent. -/
def lookupQ : List (String × ℚ) → String → ℚ
  | [], _ => 0
  | t :: ts, x => if t.1 = x then t.2 else lookupQ ts x

/-- Assignment read off a solution vector, by variable-name lookup. -/
def toAssign (names : List String) (sol : List ℚ) : Assign :=
  fun x => lookupQ (names.zip sol) x

/-- Modelled from the spec: `decode` (spec section 4.5, missing from the
repository).  Checks the vector length against the stored encoding state,
recovers each original variable by the stored coefficient list, and
recomputes the objective value by evaluating the original model at the
decoded point. -/
def decodeVec (st : IntEncState) (sol : List ℚ) : Except ConvError (List ℚ × ℚ) :=
  if sol.length = st.encoded.vars.length then
    let a := toAssign (st.encoded.vars.map (fun v => v.name)) sol
    let d := decodeAssign st.rc a
    Except.ok (st.original.vars.map (fun v => d v.name), st.original.objective.eval d)
  else
    Except.error ConvError.decodeMismatch

/-! ### Evaluation lemmas for substitution -/

theorem evalLin_nil (a : Assign) : evalLin [] a = 0 := rfl

theorem evalLin_cons (t : String × ℚ) (ts : Lin) (a : Assign) :
    evalLin (t :: ts) a = t.2 * a t.1 + evalLin ts a := rfl

theorem evalLin_append (l1 l2 : Lin) (a : Assign) :
    evalLin (l1 ++ l2) a = evalLin l1 a + evalLin l2 a := by
  unfold evalLin
  rw [List.map_append, List.sum_append]

theorem evalQuadTerms_nil (a : Assign) : evalQuadTerms [] a = 0 := rfl

theorem evalQuadTerms_cons (t : String × String × ℚ) (ts : List (String × String × ℚ))
    (a : Assign) :
    evalQuadTerms (t :: ts) a = t.2.2 * a t.1 * a t.2.1 + evalQuadTerms ts a := rfl

theorem evalQuadTerms_append (l1 l2 : List (String × String × ℚ)) (a : Assign) :
    evalQuadTerms (l1 ++ l2) a = evalQuadTerms l1 a + evalQuadTerms l2 a := by
  unfold evalQuadTerms
  rw [List.map_append, List.sum_append]

theorem evalLin_scaled (reps : List (String × ℚ)) (q : ℚ) (a : Assign) :
    evalLin (reps.map (fun r => (r.1, q * r.2))) a = q * evalLin reps a := by
  induction reps with
  | nil => simp [evalLin]
  | cons r rs ih =>
    rw [List.map_cons, evalLin_cons, evalLin_cons, ih]
    ring

theorem evalLin_substLin (rc : EncRecord) (lin : Lin) (a : Assign) :
    evalLin (substLin rc lin) a = evalLin lin (decodeAssign rc a) := by
  induction lin with
  | nil => rfl
  | cons t ts ih =>
    rw [substLin, evalLin_append, ih, evalLin_cons]
    congr 1
    cases hx : repsOf rc t.1 with
    | none =>
      simp only [evalLin_cons, evalLin_nil, decodeAssign, hx]
      ring
    | some reps =>
      simp only [evalLin_scaled, decodeAssign, hx]

theorem evalQuadTerms_row (s c : ℚ) (x : String) (l2 : Lin) (a : Assign) :
    evalQuadTerms (l2.map (fun u => (x, u.1, s * c * u.2))) a =
      s * c * a x * evalLin l2 a := by
  induction l2 with
  | nil => simp [evalQuadTerms, evalLin]
  | cons u us ihu =>
    rw [List.map_cons, evalQuadTerms_cons, ihu, evalLin_cons]
    ring

theorem evalQuadTerms_crossTerms (s : ℚ) (l1 l2 : Lin) (a : Assign) :
    evalQuadTerms (crossTerms s l1 l2) a = s * evalLin l1 a * evalLin l2 a := by
  induction l1 with
  | nil => simp [crossTerms, evalQuadTerms, evalLin]
  | cons t ts ih =>
    rw [crossTerms, evalQuadTerms_append, ih, evalLin_cons, evalQuadTerms_row]
    ring

theorem evalLin_repsOrSelf (rc : EncRecord) (x : String) (a : Assign) :
    evalLin (repsOrSelf rc x) a = decodeAssign rc a x := by
  unfold repsOrSelf decodeAssign
  cases repsOf rc x with
  | none => simp [evalLin]
  | some reps => rfl

theorem evalQuadTerms_substQuad (rc : EncRecord) (qs : List (String × String × ℚ))
    (a : Assign) :
    evalQuadTerms (substQuad rc qs) a = evalQuadTerms qs (decodeAssign rc a) := by
  induction qs with
  | nil => rfl
  | cons t ts ih =>
    rw [substQuad, evalQuadTerms_append, ih, evalQuadTerms_cons,
      evalQuadTerms_crossTerms, evalLin_repsOrSelf, evalLin_repsOrSelf]

theorem eval_encode_objective (m : Model) (a : Assign) :
    (IntegerToBinaryConverter.encode m).encoded.objective.eval a =
      m.objective.eval (decodeAssign (mkRecord m.vars) a) := by
  unfold IntegerToBinaryConverter.encode QuadExpr.eval
  simp only
  rw [evalLin_substLin, evalQuadTerms_substQuad]

/-- C1: for an integer variable with bounds `[0, U]`, the
bounded-coefficient encoding uses exactly `k = ceil(log2 (U+1))` binary
variables with coefficients `1, 2, ..., 2^(k-2), U+1-2^(k-1)`, and the
achievable subset sums of those coefficients are exactly `{0, ..., U}`:
no gaps, and no subset sum exceeds `U`. -/
theorem intToBinary_coeffs_cover (U : ℕ) :
    (bcCoeffs U).length = Nat.clog 2 (U + 1) ∧
      subsetSums (bcCoeffs U) = Finset.range (U + 1) :=
  ⟨bcCoeffs_length U, bcCoeffs_cover U⟩

/-! ### The empty record and the no-op case (C7) -/

theorem repsOf_nil (x : String) : repsOf [] x = none := rfl

theorem substLin_nil_record (lin : Lin) : substLin [] lin = lin := by
  induction lin with
  | nil => rfl
  | cons t ts ih =>
    rw [substLin, ih]
    rfl

theorem substQuad_nil_record (qs : List (String × String × ℚ)) :
    substQuad [] qs = qs := by
  induction qs with
  | nil => rfl
  | cons t ts ih =>
    rw [substQuad, ih]
    show (t.1, t.2.1, t.2.2 * 1 * 1) :: ts = t :: ts
    rw [mul_one, mul_one]

theorem mkRecord_cons (w : Variable) (ws : List Variable) :
    mkRecord (w :: ws) =
      if w.kind = VarKind.integer then (w.name, varReps w) :: mkRecord ws
      else mkRecord ws := by
  by_cases h : w.kind = VarKind.integer <;> simp [mkRecord, h]

theorem mkRecord_eq_nil (vars : List Variable)
    (h : ∀ v ∈ vars, v.kind ≠ VarKind.integer) : mkRecord vars = [] := by
  induction vars with
  | nil => rfl
  | cons w ws ih =>
    rw [mkRecord_cons, if_neg (h w (List.mem_cons_self w ws))]
    exact ih fun v hv => h v (List.mem_cons_of_mem w hv)

theorem expandVars_noop (vars : List Variable)
    (h : ∀ v ∈ vars, v.kind ≠ VarKind.integer) : expandVars vars = vars := by
  induction vars with
  | nil => rfl
  | cons w ws ih =>
    rw [expandVars, if_neg (h w (List.mem_cons_self w ws)),
      ih fun v hv => h v (List.mem_cons_of_mem w hv)]
    rfl

/-- C7: `IntegerToBinaryConverter.encode` is a no-op on a model whose
variables are all binary: the encoded model is the input model unchanged
and the stored record is empty. -/
theorem intToBinary_noop (m : Model)
    (h : ∀ v ∈ m.vars, v.kind = VarKind.binary) :
    (IntegerToBinaryConverter.encode m).encoded = m ∧
      (IntegerToBinaryConverter.encode m).rc = [] := by
  have hni : ∀ v ∈ m.vars, v.kind ≠ VarKind.integer := by
    intro v hv
    rw [h v hv]
    intro hc
    cases hc
  have hrc : mkRecord m.vars = [] := mkRecord_eq_nil m.vars hni
  constructor
  · show Model.mk (expandVars m.vars) m.objSense
      (QuadExpr.mk (substQuad (mkRecord m.vars) m.objective.quad)
        (substLin (mkRecord m.vars) m.objective.lin) m.objective.const)
      (m.constraints.map fun c =>
        Constraint.mk c.name (substLin (mkRecord m.vars) c.lin) c.sense c.rhs) = m
    rw [hrc, expandVars_noop m.vars hni, substQuad_nil_record, substLin_nil_record]
    have hcs : (m.constraints.map fun c =>
        Constraint.mk c.name (substLin [] c.lin) c.sense c.rhs) = m.constraints := by
      have : ∀ c ∈ m.constraints,
          Constraint.mk c.name (substLin [] c.lin) c.sense c.rhs = c := by
        intro c _
        rw [substLin_nil_record]
      rw [List.map_congr_left this, List.map_id']
    rw [hcs]
  · exact hrc

/-- A concrete binary-only model used as the C7 witness input. -/
def binOnlyModel : Model :=
  { vars := [{ name := "x", kind := VarKind.binary, lb := 0, ub := 1 },
             { name := "y", kind := VarKind.binary, lb := 0, ub := 1 }]
    objSense := ObjSense.maximize
    objective := { quad := [], lin := [("x", 2), ("y", 1)], const := 0 }
    constraints := [{ name := "c", lin := [("x", 1), ("y", 1)], sense := CSense.le, rhs := 1 }] }

/-- Witness for C7: the no-op theorem applied to a concrete binary model. -/
theorem intToBinary_noop_witness :
    (IntegerToBinaryConverter.encode binOnlyModel).encoded = binOnlyModel ∧
      (IntegerToBinaryConverter.encode binOnlyModel).rc = [] :=
  intToBinary_noop binOnlyModel (by decide)

/-! ### Record lookups under name uniqueness, and the round trip (C2) -/

theorem repsOf_cons (y : String) (reps : List (String × ℚ)) (rc : EncRecord) (x : String) :
    repsOf ((y, reps) :: rc) x = if y = x then some reps else repsOf rc x := rfl

theorem names_inj (vars : List Variable)
    (hnodup : (vars.map (fun v => v.name)).Nodup)
    (v w : Variable) (hv : v ∈ vars) (hw : w ∈ vars) (hname : v.name = w.name) :
    v = w :=
  List.inj_on_of_nodup_map hnodup hv hw hname

theorem repsOf_mkRecord_of_not_integer (vars : List Variable)
    (hkeys : ∀ w ∈ vars, w.kind = VarKind.integer → w.name ≠ x) :
    repsOf (mkRecord vars) x = none := by
  induction vars with
  | nil => rfl
  | cons w ws ih =>
    have ihw : repsOf (mkRecord ws) x = none :=
      ih fun u hu => hkeys u (List.mem_cons_of_mem w hu)
    rw [mkRecord_cons]
    by_cases h : w.kind = VarKind.integer
    · rw [if_pos h, repsOf_cons, if_neg, ihw]
      have := hkeys w (List.mem_cons_self w ws) h
      simpa using this
    · rw [if_neg h]
      exact ihw

theorem repsOf_mkRecord_of_integer (vars : List Variable)
    (hnodup : (vars.map (fun v => v.name)).Nodup)
    (v : Variable) (hv : v ∈ vars) (hk : v.kind = VarKind.integer) :
    repsOf (mkRecord vars) v.name = some (varReps v) := by
  induction vars with
  | nil => cases hv
  | cons w ws ih =>
    have hnodup' : (ws.map (fun v => v.name)).Nodup := by
      rw [List.map_cons] at hnodup
      exact hnodup.of_cons
    have hwname : w.name ∉ ws.map (fun v => v.name) := by
      rw [List.map_cons] at hnodup
      exact (List.nodup_cons.mp hnodup).1
    rcases List.mem_cons.mp hv with rfl | hv'
    · rw [mkRecord_cons, if_pos hk, repsOf_cons, if_pos (by simp)]
    · have hne : w.name ≠ v.name := by
        intro he
        exact hwname (he ▸ List.mem_map_of_mem (fun v => v.name) hv')
      rw [mkRecord_cons]
      by_cases h : w.kind = VarKind.integer
      · rw [if_pos h, repsOf_cons, if_neg (by simpa using hne)]
        exact ih hnodup' hv'
      · rw [if_neg h]
        exact ih hnodup' hv'

theorem mem_expandVars_of_not_integer (vars : List Variable) (v : Variable)
    (hv : v ∈ vars) (hk : v.kind ≠ VarKind.integer) : v ∈ expandVars vars := by
  induction vars with
  | nil => cases hv
  | cons w ws ih =>
    rcases List.mem_cons.mp hv with rfl | hv'
    · rw [expandVars, if_neg hk]
      exact List.mem_append_left _ (List.mem_cons_self v [])
    · rw [expandVars]
      exact List.mem_append_right _ (ih hv')

theorem mem_expandVars_of_rep (vars : List Variable) (v : Variable)
    (hv : v ∈ vars) (hk : v.kind = VarKind.integer) (r : String × ℚ)
    (hr : r ∈ varReps v) : mkBinVar r.1 ∈ expandVars vars := by
  induction vars with
  | nil => cases hv
  | cons w ws ih =>
    rcases List.mem_cons.mp hv with rfl | hv'
    · rw [expandVars, if_pos hk]
      exact List.mem_append_left _ (List.mem_map_of_mem _ hr)
    · rw [expandVars]
      exact List.mem_append_right _ (ih hv')

theorem repsAux_bound (base : String) (a : Assign) (cs : List ℕ) :
    ∀ i : ℕ, (∀ t ∈ repsAux base i cs, a t.1 = 0 ∨ a t.1 = 1) →
      ∃ B : ℕ, B ≤ cs.sum ∧ evalLin (repsAux base i cs) a = (B : ℚ) := by
  induction cs with
  | nil =>
    intro i _
    exact ⟨0, Nat.le_refl 0, by simp [repsAux, evalLin]⟩
  | cons c cs ih =>
    intro i hb
    obtain ⟨B, hB, hev⟩ := ih (i + 1) fun t ht =>
      hb t (List.mem_cons_of_mem _ ht)
    rcases hb (base ++ "@" ++ toString i, (c : ℚ)) (List.mem_cons_self _ _) with h0 | h1
    · refine ⟨B, by simp [List.sum_cons]; omega, ?_⟩
      rw [repsAux, evalLin_cons, hev]
      simp only at h0
      rw [h0]
      ring
    · refine ⟨c + B, by simp [List.sum_cons]; omega, ?_⟩
      rw [repsAux, evalLin_cons, hev]
      simp only at h1
      rw [h1]
      push_cast
      ring

theorem intUB_cast (v : Variable) (hden : v.ub.den = 1) (hnum : 0 ≤ v.ub.num) :
    ((intUB v : ℕ) : ℚ) = v.ub := by
  unfold intUB
  have h1 : ((v.ub.num.toNat : ℤ) : ℚ) = (v.ub.num : ℚ) := by
    rw [Int.toNat_of_nonneg hnum]
  have h2 : (v.ub.num : ℚ) = v.ub := Rat.coe_int_num_of_den_eq_one hden
  rw [← h2, ← h1]
  norm_cast

/-- The assignment over encoded variables induced by a solution vector. -/
def IntegerToBinaryConverter.solAssign (m : Model) (sol : List ℚ) : Assign :=
  toAssign ((IntegerToBinaryConverter.encode m).encoded.vars.map (fun v => v.name)) sol

/-- The decoded assignment over the original variables. -/
def IntegerToBinaryConverter.decoded (m : Model) (sol : List ℚ) : Assign :=
  decodeAssign (IntegerToBinaryConverter.encode m).rc
    (IntegerToBinaryConverter.solAssign m sol)

/-- C2: for a well-formed model (unique names; integer variables with
bounds `[0, U]`, `U` a natural number) and a solution vector of the right
length whose induced assignment is feasible for the encoded model,
`decode` succeeds and returns the decoded assignment together with the
objective value of the *original* model recomputed at the decoded point;
the decoded assignment is feasible for the original model, and its
original objective value equals the encoded model's objective value at the
solution. -/
theorem intToBinary_roundtrip (m : Model) (sol : List ℚ)
    (hnodup : (m.vars.map (fun v => v.name)).Nodup)
    (hint : ∀ v ∈ m.vars, v.kind = VarKind.integer →
      v.lb = 0 ∧ v.ub.den = 1 ∧ 0 ≤ v.ub.num)
    (hlen : sol.length = (IntegerToBinaryConverter.encode m).encoded.vars.length)
    (hfeas : (IntegerToBinaryConverter.encode m).encoded.feasible
      (IntegerToBinaryConverter.solAssign m sol)) :
    decodeVec (IntegerToBinaryConverter.encode m) sol =
        Except.ok (m.vars.map (fun v => IntegerToBinaryConverter.decoded m sol v.name),
          m.objective.eval (IntegerToBinaryConverter.decoded m sol)) ∧
      m.feasible (IntegerToBinaryConverter.decoded m sol) ∧
      m.objective.eval (IntegerToBinaryConverter.decoded m sol) =
        (IntegerToBinaryConverter.encode m).encoded.objective.eval
          (IntegerToBinaryConverter.solAssign m sol) := by
  refine ⟨?_, ⟨?_, ?_⟩, ?_⟩
  · unfold decodeVec
    rw [if_pos hlen]
    rfl
  · intro v hv
    by_cases hk : v.kind = VarKind.integer
    · obtain ⟨hlb, hden, hnum⟩ := hint v hv hk
      have hlook : repsOf (mkRecord m.vars) v.name = some (varReps v) :=
        repsOf_mkRecord_of_integer m.vars hnodup v hv hk
      have hdv : IntegerToBinaryConverter.decoded m sol v.name =
          evalLin (varReps v) (IntegerToBinaryConverter.solAssign m sol) := by
        show decodeAssign (mkRecord m.vars) (IntegerToBinaryConverter.solAssign m sol)
          v.name = _
        unfold decodeAssign
        rw [hlook]
      have hbin : ∀ t ∈ varReps v,
          IntegerToBinaryConverter.solAssign m sol t.1 = 0 ∨
            IntegerToBinaryConverter.solAssign m sol t.1 = 1 := by
        intro t ht
        have hmem : mkBinVar t.1 ∈ (IntegerToBinaryConverter.encode m).encoded.vars :=
          mem_expandVars_of_rep m.vars v hv hk t ht
        exact (hfeas.1 _ hmem).2.2.1 rfl
      obtain ⟨B, hB, hev⟩ :=
        repsAux_bound v.name (IntegerToBinaryConverter.solAssign m sol)
          (bcCoeffs (intUB v)) 0 hbin
      have hdB : IntegerToBinaryConverter.decoded m sol v.name = (B : ℚ) := by
        rw [hdv]
        exact hev
      have hBU : B ≤ intUB v := by
        rw [← bcCoeffs_sum (intUB v)]
        exact hB
      refine ⟨?_, ?_, ?_, ?_⟩
      · rw [hlb, hdB]
        exact Nat.cast_nonneg B
      · rw [hdB, ← intUB_cast v hden hnum]
        exact_mod_cast hBU
      · intro hb
        rw [hk] at hb
        cases hb
      · intro _
        rw [hdB]
        exact Rat.den_natCast B
    · have hlook : repsOf (mkRecord m.vars) v.name = none := by
        apply repsOf_mkRecord_of_not_integer
        intro w hw hwk he
        exact hk (names_inj m.vars hnodup w v hw hv he ▸ hwk)
      have hdv : IntegerToBinaryConverter.decoded m sol v.name =
          IntegerToBinaryConverter.solAssign m sol v.name := by
        show decodeAssign (mkRecord m.vars) (IntegerToBinaryConverter.solAssign m sol)
          v.name = _
        unfold decodeAssign
        rw [hlook]
      have hmem : v ∈ (IntegerToBinaryConverter.encode m).encoded.vars :=
        mem_expandVars_of_not_integer m.vars v hv hk
      have hfv := hfeas.1 v hmem
      unfold Variable.feasible at hfv ⊢
      rw [hdv]
      exact hfv
  · intro c hc
    have hmem : Constraint.mk c.name (substLin (mkRecord m.vars) c.lin) c.sense c.rhs ∈
        (IntegerToBinaryConverter.encode m).encoded.constraints :=
      List.mem_map_of_mem _ hc
    have hsat := hfeas.2 _ hmem
    rcases c with ⟨cn, cl, cs, cr⟩
    cases cs <;> {
      simp only [Constraint.sat] at hsat ⊢
      rw [evalLin_substLin] at hsat
      exact hsat
    }
  · exact (eval_encode_objective m (IntegerToBinaryConverter.solAssign m sol)).symm

/-! ## PenalizeLinearEqualityConstraints -/

/-- Sign with which a penalty worsens the objective: subtracted for a
maximization, added for a minimization. -/
def objSign : ObjSense → ℚ
  | ObjSense.minimize => 1
  | ObjSense.maximize => -1

/-- Scale every coefficient of a linear expression. -/
def scaleLin (s : ℚ) (lin : Lin) : Lin :=
  lin.map (fun t => (t.1, s * t.2))

/-- Quadratic penalty terms: `s * a_i * a_j` for each pair of coefficients
of each constraint row. -/
def penaltyQuad (s : ℚ) : List Constraint → List (String × String × ℚ)
  | [] => []
  | c :: cs => crossTerms s c.lin c.lin ++ penaltyQuad s cs

/-- Linear penalty terms: `-2 * s * b * a_i` for each constraint row. -/
def penaltyLin (s : ℚ) : List Constraint → Lin
  | [] => []
  | c :: cs => scaleLin (-2 * s * c.rhs) c.lin ++ penaltyLin s cs

/-- Constant penalty terms: `s * b ^ 2` per constraint row. -/
def penaltyConst (s : ℚ) : List Constraint → ℚ
  | [] => 0
  | c :: cs => s * c.rhs ^ 2 + penaltyConst s cs

/-- The model produced by the penalizer: constraints folded into the
objective, zero remaining constraints. -/
def penalizedModel (M : ℚ) (m : Model) : Model :=
  let s := objSign m.objSense * M
  { vars := m.vars
    objSense := m.objSense
    objective :=
      { quad := m.objective.quad ++ penaltyQuad s m.constraints
        lin := m.objective.lin ++ penaltyLin s m.constraints
        const := m.objective.const + penaltyConst s m.constraints }
    constraints := [] }

namespace PenalizeLinearEqualityConstraints

/-- Default penalty factor (the notebook states 1e5). -/
def defaultPenalty : ℚ := 100000

/-- Modelled from the spec: `PenalizeLinearEqualityConstraints.encode`
(missing from the repository).  Each equality `sum a_i x_i = b` is added to
the objective as `M * (b - sum a_i x_i)^2`, subtracted for maximization and
added for minimization; fails if any constraint is not an equality. -/
def encode (M : ℚ) (m : Model) : Except ConvError Model :=
  if m.constraints.all (fun c => c.sense == CSense.eq) then
    Except.ok (penalizedModel M m)
  else
    Except.error ConvError.unsupportedConstraint

end PenalizeLinearEqualityConstraints

/-- Total squared-violation penalty `sum_j M * (b_j - sum_i a_i x_i)^2`. -/
def violationSum (M : ℚ) (cs : List Constraint) (a : Assign) : ℚ :=
  (cs.map (fun c => M * (c.rhs - evalLin c.lin a) ^ 2)).sum

theorem penalty_eval (s : ℚ) (cs : List Constraint) (a : Assign) :
    evalQuadTerms (penaltyQuad s cs) a + evalLin (penaltyLin s cs) a +
        penaltyConst s cs =
      (cs.map (fun c => s * (c.rhs - evalLin c.lin a) ^ 2)).sum := by
  induction cs with
  | nil => simp [penaltyQuad, penaltyLin, penaltyConst, evalQuadTerms, evalLin]
  | cons c cs ih =>
    rw [penaltyQuad, penaltyLin, penaltyConst, evalQuadTerms_append, evalLin_append,
      List.map_cons, List.sum_cons, evalQuadTerms_crossTerms, ← ih]
    have hs : evalLin (scaleLin (-2 * s * c.rhs) c.lin) a =
        -2 * s * c.rhs * evalLin c.lin a := evalLin_scaled c.lin _ a
    rw [hs]
    ring

theorem penalizedModel_eval (M : ℚ) (m : Model) (a : Assign) :
    (penalizedModel M m).objective.eval a =
      m.objective.eval a + objSign m.objSense * violationSum M m.constraints a := by
  unfold penalizedModel QuadExpr.eval violationSum
  simp only
  rw [evalQuadTerms_append, evalLin_append]
  have h1 := penalty_eval (objSign m.objSense * M) m.constraints a
  have h2 : (m.constraints.map
        (fun c => objSign m.objSense * M * (c.rhs - evalLin c.lin a) ^ 2)).sum =
      objSign m.objSense *
        (m.constraints.map (fun c => M * (c.rhs - evalLin c.lin a) ^ 2)).sum := by
    induction m.constraints with
    | nil => simp
    | cons c cs ih =>
      rw [List.map_cons, List.map_cons, List.sum_cons, List.sum_cons, ih]
      ring
  rw [← h2, ← h1]
  ring

theorem penalize_ok (M : ℚ) (m : Model)
    (h : ∀ c ∈ m.constraints, c.sense = CSense.eq) :
    PenalizeLinearEqualityConstraints.encode M m = Except.ok (penalizedModel M m) := by
  unfold PenalizeLinearEqualityConstraints.encode
  rw [if_pos]
  rw [List.all_eq_true]
  intro c hc
  exact beq_iff_eq.mpr (h c hc)

/-- C3: on an all-equality model the penalizer succeeds, removes every
constraint, and its objective evaluates to the original objective plus,
for each equality `sum a_i x_i = b`, the term `M * (b - sum a_i x_i)^2`
subtracted when maximizing and added when minimizing; the default penalty
factor is 1e5. -/
theorem penalizer_encode_spec (M : ℚ) (m : Model)
    (h : ∀ c ∈ m.constraints, c.sense = CSense.eq) :
    PenalizeLinearEqualityConstraints.defaultPenalty = 100000 ∧
      PenalizeLinearEqualityConstraints.encode M m =
        Except.ok (penalizedModel M m) ∧
      (penalizedModel M m).constraints = [] ∧
      (penalizedModel M m).vars = m.vars ∧
      (penalizedModel M m).objSense = m.objSense ∧
      ∀ a : Assign, (penalizedModel M m).objective.eval a =
        m.objective.eval a + objSign m.objSense * violationSum M m.constraints a :=
  ⟨rfl, penalize_ok M m h, rfl, rfl, rfl, fun a => penalizedModel_eval M m a⟩

/-- A concrete one-equality model used in penalizer witnesses. -/
def penEx : Model :=
  { vars := [mkBinVar "x"]
    objSense := ObjSense.maximize
    objective := { quad := [], lin := [("x", 1)], const := 0 }
    constraints := [Constraint.mk "c" [("x", 1)] CSense.eq 1] }

/-- Witness for C3 at a concrete one-constraint model. -/
theorem penalizer_encode_spec_witness :
    PenalizeLinearEqualityConstraints.defaultPenalty = 100000 ∧
      PenalizeLinearEqualityConstraints.encode 7 penEx =
        Except.ok (penalizedModel 7 penEx) ∧
      (penalizedModel 7 penEx).constraints = [] ∧
      (penalizedModel 7 penEx).vars = penEx.vars ∧
      (penalizedModel 7 penEx).objSense = penEx.objSense ∧
      ∀ a : Assign, (penalizedModel 7 penEx).objective.eval a =
        penEx.objective.eval a +
          objSign penEx.objSense * violationSum 7 penEx.constraints a :=
  penalizer_encode_spec 7 penEx (by decide)

/-- C10: at any assignment satisfying all the equality constraints, the
penalized model's objective value equals the original model's objective
value: every penalty term vanishes on feasible points. -/
theorem penalizer_feasible_value (M : ℚ) (m p : Model) (a : Assign)
    (henc : PenalizeLinearEqualityConstraints.encode M m = Except.ok p)
    (hsat : ∀ c ∈ m.constraints, evalLin c.lin a = c.rhs) :
    p.objective.eval a = m.objective.eval a := by
  have hp : p = penalizedModel M m := by
    unfold PenalizeLinearEqualityConstraints.encode at henc
    by_cases hc : m.constraints.all (fun c => c.sense == CSense.eq)
    · rw [if_pos hc] at henc
      injection henc with h
      exact h.symm
    · rw [if_neg hc] at henc
      exact Except.noConfusion henc
  subst hp
  rw [penalizedModel_eval]
  have hz : violationSum M m.constraints a = 0 := by
    unfold violationSum
    apply List.sum_eq_zero
    intro x hx
    obtain ⟨c, hc, hfx⟩ := List.mem_map.mp hx
    rw [← hfx, hsat c hc]
    ring
  rw [hz]
  ring

/-- Witness for C10: feasible point of the concrete model `penEx`. -/
theorem penalizer_feasible_value_witness :
    (penalizedModel 7 penEx).objective.eval (fun _ => 1) =
      penEx.objective.eval (fun _ => 1) :=
  penalizer_feasible_value 7 penEx (penalizedModel 7 penEx) (fun _ => 1)
    (penalize_ok 7 penEx (by decide))
    (by
      intro c hc
      simp only [penEx, List.mem_singleton] at hc
      subst hc
      norm_num [evalLin])

/-- C8: the penalizer fails with `unsupportedConstraint` exactly when some
constraint is not an equality (and succeeds exactly otherwise), and decode
fails with `decodeMismatch` exactly when the solution vector's length does
not match the variable count of the stored encoded model (and succeeds
exactly otherwise). -/
theorem converter_error_conditions (M : ℚ) (m : Model) (st : IntEncState)
    (sol : List ℚ) :
    (PenalizeLinearEqualityConstraints.encode M m =
        Except.error ConvError.unsupportedConstraint ↔
      ¬ ∀ c ∈ m.constraints, c.sense = CSense.eq) ∧
    ((∃ p, PenalizeLinearEqualityConstraints.encode M m = Except.ok p) ↔
      ∀ c ∈ m.constraints, c.sense = CSense.eq) ∧
    (decodeVec st sol = Except.error ConvError.decodeMismatch ↔
      sol.length ≠ st.encoded.vars.length) ∧
    ((∃ r, decodeVec st sol = Except.ok r) ↔
      sol.length = st.encoded.vars.length) := by
  have hcond : (m.constraints.all (fun c => c.sense == CSense.eq) = true) ↔
      ∀ c ∈ m.constraints, c.sense = CSense.eq := by
    rw [List.all_eq_true]
    constructor
    · intro h c hc
      exact beq_iff_eq.mp (h c hc)
    · intro h c hc
      exact beq_iff_eq.mpr (h c hc)
  refine ⟨?_, ?_, ?_, ?_⟩
  · unfold PenalizeLinearEqualityConstraints.encode
    by_cases h : m.constraints.all (fun c => c.sense == CSense.eq)
    · rw [if_pos h]
      constructor
      · intro hcontra
        exact Except.noConfusion hcontra
      · intro hne
        exact (hne (hcond.mp h)).elim
    · rw [if_neg h]
      have hne : ¬ ∀ c ∈ m.constraints, c.sense = CSense.eq :=
        fun hh => h (hcond.mpr hh)
      simp [hne]
  · unfold PenalizeLinearEqualityConstraints.encode
    by_cases h : m.constraints.all (fun c => c.sense == CSense.eq)
    · rw [if_pos h]
      constructor
      · intro _
        exact hcond.mp h
      · intro _
        exact ⟨penalizedModel M m, rfl⟩
    · rw [if_neg h]
      have hne : ¬ ∀ c ∈ m.constraints, c.sense = CSense.eq :=
        fun hh => h (hcond.mpr hh)
      simp [hne]
  · unfold decodeVec
    by_cases h : sol.length = st.encoded.vars.length
    · rw [if_pos h]
      simp [h]
    · rw [if_neg h]
      simp [h]
  · unfold decodeVec
    by_cases h : sol.length = st.encoded.vars.length
    · rw [if_pos h]
      simp [h]
    · rw [if_neg h]
      simp [h]

/-! ### Penalty domination (C4) -/

/-- Total magnitude of the objective's quadratic and linear coefficients. -/
def objMag (m : Model) : ℚ :=
  (m.objective.quad.map (fun t => |t.2.2|)).sum +
    (m.objective.lin.map (fun t => |t.2|)).sum

/-- `x` is strictly worse than `y` under an optimization sense. -/
def worseThan (s : ObjSense) (x y : ℚ) : Prop :=
  match s with
  | ObjSense.maximize => x < y
  | ObjSense.minimize => y < x

theorem objMag_nonneg (m : Model) : 0 ≤ objMag m := by
  unfold objMag
  have h1 : (0:ℚ) ≤ (m.objective.quad.map (fun t => |t.2.2|)).sum :=
    List.sum_nonneg fun x hx => by
      obtain ⟨t, _, hfx⟩ := List.mem_map.mp hx
      rw [← hfx]
      exact abs_nonneg _
  have h2 : (0:ℚ) ≤ (m.objective.lin.map (fun t => |t.2|)).sum :=
    List.sum_nonneg fun x hx => by
      obtain ⟨t, _, hfx⟩ := List.mem_map.mp hx
      rw [← hfx]
      exact abs_nonneg _
  linarith

theorem abs_evalLin_le (lin : Lin) (a : Assign)
    (h : ∀ t ∈ lin, |a t.1| ≤ 1) :
    |evalLin lin a| ≤ (lin.map (fun t => |t.2|)).sum := by
  induction lin with
  | nil => simp [evalLin]
  | cons t ts ih =>
    rw [evalLin_cons, List.map_cons, List.sum_cons]
    have h1 : |t.2 * a t.1| ≤ |t.2| := by
      rw [abs_mul]
      exact mul_le_of_le_one_right (abs_nonneg _) (h t (List.mem_cons_self t ts))
    calc |t.2 * a t.1 + evalLin ts a| ≤ |t.2 * a t.1| + |evalLin ts a| := abs_add _ _
    _ ≤ |t.2| + (ts.map (fun t => |t.2|)).sum :=
      add_le_add h1 (ih fun u hu => h u (List.mem_cons_of_mem t hu))

theorem abs_evalQuadTerms_le (qs : List (String × String × ℚ)) (a : Assign)
    (h : ∀ t ∈ qs, |a t.1| ≤ 1 ∧ |a t.2.1| ≤ 1) :
    |evalQuadTerms qs a| ≤ (qs.map (fun t => |t.2.2|)).sum := by
  induction qs with
  | nil => simp [evalQuadTerms]
  | cons t ts ih =>
    rw [evalQuadTerms_cons, List.map_cons, List.sum_cons]
    have ha1 : |a t.1| ≤ 1 := (h t (List.mem_cons_self t ts)).1
    have ha2 : |a t.2.1| ≤ 1 := (h t (List.mem_cons_self t ts)).2
    have h1 : |t.2.2 * a t.1 * a t.2.1| ≤ |t.2.2| := by
      rw [abs_mul, abs_mul]
      have step1 : |t.2.2| * |a t.1| * |a t.2.1| ≤ |t.2.2| * |a t.1| :=
        mul_le_of_le_one_right (mul_nonneg (abs_nonneg _) (abs_nonneg _)) ha2
      have step2 : |t.2.2| * |a t.1| ≤ |t.2.2| :=
        mul_le_of_le_one_right (abs_nonneg _) ha1
      exact le_trans step1 step2
    calc |t.2.2 * a t.1 * a t.2.1 + evalQuadTerms ts a| ≤
        |t.2.2 * a t.1 * a t.2.1| + |evalQuadTerms ts a| := abs_add _ _
    _ ≤ |t.2.2| + (ts.map (fun t => |t.2.2|)).sum :=
      add_le_add h1 (ih fun u hu => h u (List.mem_cons_of_mem t hu))

theorem evalLin_int (lin : Lin) (a : Assign)
    (hc : ∀ t ∈ lin, ∃ n : ℤ, t.2 = (n : ℚ))
    (hv : ∀ t ∈ lin, a t.1 = 0 ∨ a t.1 = 1) :
    ∃ z : ℤ, evalLin lin a = (z : ℚ) := by
  induction lin with
  | nil => exact ⟨0, by simp [evalLin]⟩
  | cons t ts ih =>
    obtain ⟨z, hz⟩ := ih (fun u hu => hc u (List.mem_cons_of_mem t hu))
      (fun u hu => hv u (List.mem_cons_of_mem t hu))
    obtain ⟨n, hn⟩ := hc t (List.mem_cons_self t ts)
    rcases hv t (List.mem_cons_self t ts) with h0 | h1
    · refine ⟨z, ?_⟩
      rw [evalLin_cons, hz, hn, h0]
      ring
    · refine ⟨n + z, ?_⟩
      rw [evalLin_cons, hz, hn, h1]
      push_cast
      ring

theorem one_le_sq_of_int_ne_zero (z : ℤ) (hz : z ≠ 0) : 1 ≤ ((z : ℚ)) ^ 2 := by
  have h1 : (1 : ℚ) ≤ |(z : ℚ)| := by
    have h : (1 : ℤ) ≤ |z| := Int.one_le_abs hz
    calc (1 : ℚ) = ((1 : ℤ) : ℚ) := by norm_num
    _ ≤ ((|z| : ℤ) : ℚ) := by exact_mod_cast h
    _ = |(z : ℚ)| := by push_cast; rfl
  calc (1 : ℚ) = 1 * 1 := by norm_num
  _ ≤ |(z : ℚ)| * |(z : ℚ)| := mul_le_mul h1 h1 (by norm_num) (abs_nonneg _)
  _ = ((z : ℚ)) ^ 2 := by
    rw [abs_mul_abs_self]
    ring

theorem sat_iff_of_eq_sense (c : Constraint) (a : Assign)
    (h : c.sense = CSense.eq) : c.sat a ↔ evalLin c.lin a = c.rhs := by
  unfold Constraint.sat
  rw [h]

/-- C4 (amended): on an all-equality model whose variables are all binary,
whose objective and constraints reference only declared variables, and
whose constraint coefficients and right-hand sides are integers, any
penalty factor `M` exceeding twice the total magnitude of the objective's
coefficients makes every bounds-feasible assignment that violates some
equality constraint strictly worse (under the model's optimization sense)
than every bounds-feasible assignment satisfying all of them. -/
theorem penalizer_domination (M : ℚ) (m : Model) (aBad aGood : Assign)
    (hall : ∀ c ∈ m.constraints, c.sense = CSense.eq)
    (hbin : ∀ v ∈ m.vars, v.kind = VarKind.binary)
    (hdeclL : ∀ t ∈ m.objective.lin, ∃ v ∈ m.vars, v.name = t.1)
    (hdeclQ : ∀ t ∈ m.objective.quad,
      (∃ v ∈ m.vars, v.name = t.1) ∧ ∃ v ∈ m.vars, v.name = t.2.1)
    (hdeclC : ∀ c ∈ m.constraints, ∀ t ∈ c.lin, ∃ v ∈ m.vars, v.name = t.1)
    (hintC : ∀ c ∈ m.constraints,
      (∀ t ∈ c.lin, ∃ n : ℤ, t.2 = (n : ℚ)) ∧ ∃ n : ℤ, c.rhs = (n : ℚ))
    (hM : 2 * objMag m < M)
    (hfb : ∀ v ∈ m.vars, v.feasible aBad)
    (hfg : ∀ v ∈ m.vars, v.feasible aGood)
    (cBad : Constraint) (hcBad : cBad ∈ m.constraints) (hviol : ¬ cBad.sat aBad)
    (hgood : ∀ c ∈ m.constraints, c.sat aGood) :
    worseThan m.objSense ((penalizedModel M m).objective.eval aBad)
      ((penalizedModel M m).objective.eval aGood) := by
  have hM0 : 0 < M := lt_of_le_of_lt (by linarith [objMag_nonneg m]) hM
  have hvalB : ∀ x : String, (∃ v ∈ m.vars, v.name = x) → aBad x = 0 ∨ aBad x = 1 := by
    rintro x ⟨v, hv, rfl⟩
    exact (hfb v hv).2.2.1 (hbin v hv)
  have hvalG : ∀ x : String, (∃ v ∈ m.vars, v.name = x) → aGood x = 0 ∨ aGood x = 1 := by
    rintro x ⟨v, hv, rfl⟩
    exact (hfg v hv).2.2.1 (hbin v hv)
  have habs : ∀ (b : Assign), (∀ x, (∃ v ∈ m.vars, v.name = x) → b x = 0 ∨ b x = 1) →
      ∀ x, (∃ v ∈ m.vars, v.name = x) → |b x| ≤ 1 := by
    intro b hb x hx
    rcases hb x hx with h | h <;> rw [h] <;> norm_num
  have hQb := abs_evalQuadTerms_le m.objective.quad aBad fun t ht =>
    ⟨habs aBad hvalB t.1 (hdeclQ t ht).1, habs aBad hvalB t.2.1 (hdeclQ t ht).2⟩
  have hQg := abs_evalQuadTerms_le m.objective.quad aGood fun t ht =>
    ⟨habs aGood hvalG t.1 (hdeclQ t ht).1, habs aGood hvalG t.2.1 (hdeclQ t ht).2⟩
  have hLb := abs_evalLin_le m.objective.lin aBad fun t ht =>
    habs aBad hvalB t.1 (hdeclL t ht)
  have hLg := abs_evalLin_le m.objective.lin aGood fun t ht =>
    habs aGood hvalG t.1 (hdeclL t ht)
  have hvg : violationSum M m.constraints aGood = 0 := by
    unfold violationSum
    apply List.sum_eq_zero
    intro x hx
    obtain ⟨c, hc, hfx⟩ := List.mem_map.mp hx
    have := (sat_iff_of_eq_sense c aGood (hall c hc)).mp (hgood c hc)
    rw [← hfx, this]
    ring
  have hterm : M ≤ M * (cBad.rhs - evalLin cBad.lin aBad) ^ 2 := by
    have hne : evalLin cBad.lin aBad ≠ cBad.rhs := by
      intro he
      exact hviol ((sat_iff_of_eq_sense cBad aBad (hall cBad hcBad)).mpr he)
    obtain ⟨zb, hzb⟩ := evalLin_int cBad.lin aBad (hintC cBad hcBad).1
      (fun t ht => hvalB t.1 (hdeclC cBad hcBad t ht))
    obtain ⟨zr, hzr⟩ := (hintC cBad hcBad).2
    have hzne : zr - zb ≠ 0 := by
      intro hz
      apply hne
      rw [hzb, hzr]
      have : zr = zb := by omega
      rw [this]
    have hsq : 1 ≤ (cBad.rhs - evalLin cBad.lin aBad) ^ 2 := by
      have := one_le_sq_of_int_ne_zero (zr - zb) hzne
      rw [hzb, hzr]
      push_cast at this ⊢
      linarith [this]
    calc M = M * 1 := by ring
    _ ≤ M * (cBad.rhs - evalLin cBad.lin aBad) ^ 2 :=
      mul_le_mul_of_nonneg_left hsq (le_of_lt hM0)
  have hvb : M ≤ violationSum M m.constraints aBad := by
    unfold violationSum
    refine le_trans hterm ?_
    apply List.single_le_sum
    · intro x hx
      obtain ⟨c, _, hfx⟩ := List.mem_map.mp hx
      rw [← hfx]
      positivity
    · exact List.mem_map_of_mem _ hcBad
  have heB : (penalizedModel M m).objective.eval aBad =
      m.objective.eval aBad + objSign m.objSense * violationSum M m.constraints aBad :=
    penalizedModel_eval M m aBad
  have heG : (penalizedModel M m).objective.eval aGood =
      m.objective.eval aGood + objSign m.objSense * violationSum M m.constraints aGood :=
    penalizedModel_eval M m aGood
  have hoB : m.objective.eval aBad =
      evalQuadTerms m.objective.quad aBad + evalLin m.objective.lin aBad +
        m.objective.const := rfl
  have hoG : m.objective.eval aGood =
      evalQuadTerms m.objective.quad aGood + evalLin m.objective.lin aGood +
        m.objective.const := rfl
  have hQb1 := (abs_le.mp hQb).1
  have hQb2 := (abs_le.mp hQb).2
  have hQg1 := (abs_le.mp hQg).1
  have hQg2 := (abs_le.mp hQg).2
  have hLb1 := (abs_le.mp hLb).1
  have hLb2 := (abs_le.mp hLb).2
  have hLg1 := (abs_le.mp hLg).1
  have hLg2 := (abs_le.mp hLg).2
  have hmag : objMag m = (m.objective.quad.map (fun t => |t.2.2|)).sum +
      (m.objective.lin.map (fun t => |t.2|)).sum := rfl
  rw [heB, heG, hvg, hoB, hoG]
  cases hs : m.objSense with
  | maximize =>
    show _ < _
    simp only [objSign]
    linarith [hvb, hM, hQb2, hQg1, hLb2, hLg1, hmag]
  | minimize =>
    show _ < _
    simp only [objSign]
    linarith [hvb, hM, hQb1, hQg2, hLb1, hLg2, hmag]

/-- Counterexample model for the unqualified domination claim: one binary
variable, maximized objective `x`, one equality constraint
`(1/1000) x = 0` with a non-integer coefficient. -/
def cexModel : Model :=
  { vars := [mkBinVar "x"]
    objSense := ObjSense.maximize
    objective := { quad := [], lin := [("x", 1)], const := 0 }
    constraints := [Constraint.mk "c" [("x", 1 / 1000)] CSense.eq 0] }

/-- The constraint row of `cexModel`. -/
def cexCon : Constraint := Constraint.mk "c" [("x", 1 / 1000)] CSense.eq 0

/-- Counterexample for C4 as stated: with the default penalty factor
`M = 1e5`, which dominates the objective's coefficient magnitudes
(`1e5 > 2 * objMag`), the all-ones assignment violates the equality
constraint of `cexModel` yet its penalized objective value (9/10) is
strictly *better* (higher, under maximize) than the value (0) of the
all-zeros assignment that satisfies the constraint. -/
theorem penalizer_domination_cex :
    cexModel.constraints = [cexCon] ∧
      cexModel.vars = [mkBinVar "x"] ∧
      2 * objMag cexModel < 100000 ∧
      Variable.feasible (mkBinVar "x") (fun _ => 1) ∧
      Variable.feasible (mkBinVar "x") (fun _ => 0) ∧
      ¬ cexCon.sat (fun _ => 1) ∧
      cexCon.sat (fun _ => 0) ∧
      ¬ worseThan cexModel.objSense
        ((penalizedModel 100000 cexModel).objective.eval (fun _ => 1))
        ((penalizedModel 100000 cexModel).objective.eval (fun _ => 0)) := by
  refine ⟨rfl, rfl, ?_, ?_, ?_, ?_, ?_, ?_⟩
  · norm_num [objMag, cexModel, evalLin]
  · refine ⟨by norm_num [mkBinVar], by norm_num [mkBinVar], fun _ => Or.inr rfl,
      fun h => ?_⟩
    exact VarKind.noConfusion h
  · refine ⟨by norm_num [mkBinVar], by norm_num [mkBinVar], fun _ => Or.inl rfl,
      fun h => ?_⟩
    exact VarKind.noConfusion h
  · show ¬ (evalLin cexCon.lin (fun _ => 1) = cexCon.rhs)
    norm_num [cexCon, evalLin]
  · show evalLin cexCon.lin (fun _ => 0) = cexCon.rhs
    norm_num [cexCon, evalLin]
  · show ¬ ((penalizedModel 100000 cexModel).objective.eval (fun _ => 1) <
      (penalizedModel 100000 cexModel).objective.eval (fun _ => 0))
    have h1 : (penalizedModel 100000 cexModel).objective.eval (fun _ => 1) = 9 / 10 := by
      norm_num [penalizedModel, cexModel, QuadExpr.eval, evalQuadTerms, evalLin,
        penaltyQuad, penaltyLin, penaltyConst, crossTerms, scaleLin, objSign]
    have h0 : (penalizedModel 100000 cexModel).objective.eval (fun _ => 0) = 0 := by
      norm_num [penalizedModel, cexModel, QuadExpr.eval, evalQuadTerms, evalLin,
        penaltyQuad, penaltyLin, penaltyConst, crossTerms, scaleLin, objSign]
    rw [h1, h0]
    norm_num

/-- Witness for the amended C4 theorem at the concrete model `penEx`
(`max x` subject to `x = 1`, binary `x`), penalty `M = 10 > 2 * objMag`:
the violating all-zeros point is strictly worse than the satisfying
all-ones point. -/
theorem penalizer_domination_witness :
    worseThan penEx.objSense
      ((penalizedModel 10 penEx).objective.eval (fun _ => 0))
      ((penalizedModel 10 penEx).objective.eval (fun _ => 1)) := by
  refine penalizer_domination 10 penEx (fun _ => 0) (fun _ => 1)
    (by decide) (by decide) ?_ (by decide) ?_ ?_ ?_ ?_ ?_
    (Constraint.mk "c" [("x", 1)] CSense.eq 1) (by decide) ?_ ?_
  · intro t ht
    simp only [penEx, List.mem_singleton] at ht
    subst ht
    exact ⟨mkBinVar "x", List.mem_singleton.mpr rfl, rfl⟩
  · intro c hc t ht
    simp only [penEx, List.mem_singleton] at hc
    subst hc
    simp only [List.mem_singleton] at ht
    subst ht
    exact ⟨mkBinVar "x", List.mem_singleton.mpr rfl, rfl⟩
  · intro c hc
    simp only [penEx, List.mem_singleton] at hc
    subst hc
    constructor
    · intro t ht
      simp only [List.mem_singleton] at ht
      subst ht
      exact ⟨1, by norm_num⟩
    · exact ⟨1, by norm_num⟩
  · norm_num [objMag, penEx]
  · intro v hv
    simp only [penEx, List.mem_singleton] at hv
    subst hv
    exact ⟨by norm_num [mkBinVar], by norm_num [mkBinVar], fun _ => Or.inl rfl,
      fun h => VarKind.noConfusion h⟩
  · intro v hv
    simp only [penEx, List.mem_singleton] at hv
    subst hv
    exact ⟨by norm_num [mkBinVar], by norm_num [mkBinVar], fun _ => Or.inr rfl,
      fun h => VarKind.noConfusion h⟩
  · show ¬ (evalLin [("x", 1)] (fun _ => 0) = 1)
    norm_num [evalLin]
  · intro c hc
    simp only [penEx, List.mem_singleton] at hc
    subst hc
    show evalLin [("x", 1)] (fun _ => 1) = 1
    norm_num [evalLin]

/-! ## InequalityToEqualityConverter -/

/-- First declared variable with a name, if any. -/
def findVar : List Variable → String → Option Variable
  | [], _ => none
  | v :: vs, x => if v.name = x then some v else findVar vs x

/-- Declared bounds of a variable name ((0, 0) when undeclared). -/
def varBounds (vars : List Variable) (x : String) : ℚ × ℚ :=
  match findVar vars x with
  | some v => (v.lb, v.ub)
  | none => (0, 0)

/-- Smallest value a linear expression can take under declared bounds. -/
def linLo (vars : List Variable) : Lin → ℚ
  | [] => 0
  | t :: ts =>
    min (t.2 * (varBounds vars t.1).1) (t.2 * (varBounds vars t.1).2) + linLo vars ts

/-- Largest value a linear expression can take under declared bounds. -/
def linHi (vars : List Variable) : Lin → ℚ
  | [] => 0
  | t :: ts =>
    max (t.2 * (varBounds vars t.1).1) (t.2 * (varBounds vars t.1).2) + linHi vars ts

/-- Whether a rational is an integer (denominator 1). -/
def isIntQ (q : ℚ) : Bool :=
  q.den == 1

/-- Whether the slack for a constraint can use the integer domain:
all coefficients, referenced bounds and the right-hand side integral. -/
def slackIsInt (vars : List Variable) (c : Constraint) : Bool :=
  c.lin.all (fun t => isIntQ t.2 && isIntQ (varBounds vars t.1).1 &&
    isIntQ (varBounds vars t.1).2) && isIntQ c.rhs

/-- Name of the slack variable introduced for a constraint. -/
def slackName (vars : List Variable) (c : Constraint) : String :=
  c.name ++ (if slackIsInt vars c then "@int_slack" else "@continuous_slack")

/-- Modelled from the spec: the non-negative slack variable for an
inequality, with bounds the feasible range of the gap between the two
sides, in the tightest sufficient domain. -/
def slackVar (vars : List Variable) (c : Constraint) : Variable :=
  { name := slackName vars c
    kind := if slackIsInt vars c then VarKind.integer else VarKind.continuous
    lb := 0
    ub :=
      match c.sense with
      | CSense.le => c.rhs - linLo vars c.lin
      | CSense.ge => linHi vars c.lin - c.rhs
      | CSense.eq => 0 }

/-- Rewrite constraints, collecting the slack variables created. -/
def ineqToEqCons (vars : List Variable) :
    List Constraint → List Constraint × List Variable
  | [] => ([], [])
  | c :: cs =>
    let p := ineqToEqCons vars cs
    match c.sense with
    | CSense.eq => (c :: p.1, p.2)
    | CSense.le =>
      (Constraint.mk c.name (c.lin ++ [(slackName vars c, 1)]) CSense.eq c.rhs :: p.1,
        slackVar vars c :: p.2)
    | CSense.ge =>
      (Constraint.mk c.name (c.lin ++ [(slackName vars c, -1)]) CSense.eq c.rhs :: p.1,
        slackVar vars c :: p.2)

namespace InequalityToEqualityConverter

/-- Modelled from the spec: `InequalityToEqualityConverter.encode` (missing
from the repository).  Each inequality gets one new non-negative slack
variable, added for `≤` and subtracted for `≥`, turning it into an
equality; equality constraints are untouched. -/
def encode (m : Model) : Model :=
  { vars := m.vars ++ (ineqToEqCons m.vars m.constraints).2
    objSense := m.objSense
    objective := m.objective
    constraints := (ineqToEqCons m.vars m.constraints).1 }

end InequalityToEqualityConverter

/-- Number of inequality constraints of a list. -/
def countIneqs (cs : List Constraint) : ℕ :=
  (cs.filter (fun c => !(c.sense == CSense.eq))).length

theorem linLo_le_evalLin (vars : List Variable) (lin : Lin) (a : Assign)
    (hb : ∀ t ∈ lin, (varBounds vars t.1).1 ≤ a t.1 ∧ a t.1 ≤ (varBounds vars t.1).2) :
    linLo vars lin ≤ evalLin lin a := by
  induction lin with
  | nil => simp [linLo, evalLin]
  | cons t ts ih =>
    rw [linLo, evalLin_cons]
    have hterm : min (t.2 * (varBounds vars t.1).1) (t.2 * (varBounds vars t.1).2) ≤
        t.2 * a t.1 := by
      rcases le_or_lt 0 t.2 with hc | hc
      · exact le_trans (min_le_left _ _)
          (mul_le_mul_of_nonneg_left (hb t (List.mem_cons_self t ts)).1 hc)
      · exact le_trans (min_le_right _ _)
          (mul_le_mul_of_nonpos_left (hb t (List.mem_cons_self t ts)).2 (le_of_lt hc))
    have hrest := ih fun u hu => hb u (List.mem_cons_of_mem t hu)
    linarith

theorem evalLin_le_linHi (vars : List Variable) (lin : Lin) (a : Assign)
    (hb : ∀ t ∈ lin, (varBounds vars t.1).1 ≤ a t.1 ∧ a t.1 ≤ (varBounds vars t.1).2) :
    evalLin lin a ≤ linHi vars lin := by
  induction lin with
  | nil => simp [linHi, evalLin]
  | cons t ts ih =>
    rw [linHi, evalLin_cons]
    have hterm : t.2 * a t.1 ≤
        max (t.2 * (varBounds vars t.1).1) (t.2 * (varBounds vars t.1).2) := by
      rcases le_or_lt 0 t.2 with hc | hc
      · exact le_trans
          (mul_le_mul_of_nonneg_left (hb t (List.mem_cons_self t ts)).2 hc)
          (le_max_right _ _)
      · exact le_trans
          (mul_le_mul_of_nonpos_left (hb t (List.mem_cons_self t ts)).1 (le_of_lt hc))
          (le_max_left _ _)
    have hrest := ih fun u hu => hb u (List.mem_cons_of_mem t hu)
    linarith

theorem evalLin_congr (lin : Lin) (a b : Assign)
    (h : ∀ t ∈ lin, a t.1 = b t.1) : evalLin lin a = evalLin lin b := by
  induction lin with
  | nil => rfl
  | cons t ts ih =>
    rw [evalLin_cons, evalLin_cons, h t (List.mem_cons_self t ts),
      ih fun u hu => h u (List.mem_cons_of_mem t hu)]

/-- C5: the converter keeps the constraint count, adds exactly one variable
per inequality, rewrites each `≤` (resp. `≥`) row into an equality with the
slack added (resp. subtracted), and gives each slack the bounds of the
feasible range of the gap `b - sum a_i x_i` (resp. `sum a_i x_i - b`) under
the declared bounds: on any in-bounds assignment satisfying the inequality,
the gap lies within `[0, slack upper bound]`, and setting the slack to the
gap satisfies the new equality. -/
theorem ineqToEq_spec (m : Model) :
    (InequalityToEqualityConverter.encode m).constraints.length =
        m.constraints.length ∧
      (InequalityToEqualityConverter.encode m).vars.length =
        m.vars.length + countIneqs m.constraints ∧
      (InequalityToEqualityConverter.encode m).constraints =
        m.constraints.map (fun c =>
          match c.sense with
          | CSense.eq => c
          | CSense.le =>
            Constraint.mk c.name (c.lin ++ [(slackName m.vars c, 1)]) CSense.eq c.rhs
          | CSense.ge =>
            Constraint.mk c.name (c.lin ++ [(slackName m.vars c, -1)]) CSense.eq c.rhs) ∧
      ∀ c ∈ m.constraints, (slackVar m.vars c).lb = 0 ∧
        ∀ a : Assign,
          (∀ t ∈ c.lin, (varBounds m.vars t.1).1 ≤ a t.1 ∧
            a t.1 ≤ (varBounds m.vars t.1).2) →
          (∀ t ∈ c.lin, t.1 ≠ slackName m.vars c) →
          (c.sense = CSense.le → evalLin c.lin a ≤ c.rhs →
            (0 ≤ c.rhs - evalLin c.lin a ∧
              c.rhs - evalLin c.lin a ≤ (slackVar m.vars c).ub) ∧
            evalLin (c.lin ++ [(slackName m.vars c, 1)])
              (fun x => if x = slackName m.vars c then c.rhs - evalLin c.lin a
                        else a x) = c.rhs) ∧
          (c.sense = CSense.ge → c.rhs ≤ evalLin c.lin a →
            (0 ≤ evalLin c.lin a - c.rhs ∧
              evalLin c.lin a - c.rhs ≤ (slackVar m.vars c).ub) ∧
            evalLin (c.lin ++ [(slackName m.vars c, -1)])
              (fun x => if x = slackName m.vars c then evalLin c.lin a - c.rhs
                        else a x) = c.rhs) := by
  have hlens : ∀ cs : List Constraint,
      (ineqToEqCons m.vars cs).1.length = cs.length ∧
        (ineqToEqCons m.vars cs).2.length = countIneqs cs := by
    intro cs
    induction cs with
    | nil => exact ⟨rfl, rfl⟩
    | cons c cs ih =>
      unfold ineqToEqCons countIneqs
      cases hs : c.sense <;>
        simp_all [countIneqs, List.filter_cons, List.length_cons]
  refine ⟨(hlens m.constraints).1, ?_, ?_, ?_⟩
  · show (m.vars ++ (ineqToEqCons m.vars m.constraints).2).length = _
    rw [List.length_append, (hlens m.constraints).2]
  · show (ineqToEqCons m.vars m.constraints).1 = _
    induction m.constraints with
    | nil => rfl
    | cons c cs ih =>
      unfold ineqToEqCons
      cases hs : c.sense <;> simp_all
  · intro c hc
    refine ⟨rfl, ?_⟩
    intro a hb hfresh
    constructor
    · intro hsense hsat
      have hlo := linLo_le_evalLin m.vars c.lin a hb
      constructor
      · constructor
        · linarith
        · have : (slackVar m.vars c).ub = c.rhs - linLo m.vars c.lin := by
            unfold slackVar
            rw [hsense]
          rw [this]
          linarith
      · rw [evalLin_append]
        have hsame : evalLin c.lin
            (fun x => if x = slackName m.vars c then c.rhs - evalLin c.lin a
                      else a x) = evalLin c.lin a := by
          apply evalLin_congr
          intro t ht
          simp [hfresh t ht]
        rw [hsame]
        simp [evalLin]
    · intro hsense hsat
      have hhi := evalLin_le_linHi m.vars c.lin a hb
      constructor
      · constructor
        · linarith
        · have : (slackVar m.vars c).ub = linHi m.vars c.lin - c.rhs := by
            unfold slackVar
            rw [hsense]
          rw [this]
          linarith
      · rw [evalLin_append]
        have hsame : evalLin c.lin
            (fun x => if x = slackName m.vars c then evalLin c.lin a - c.rhs
                      else a x) = evalLin c.lin a := by
          apply evalLin_congr
          intro t ht
          simp [hfresh t ht]
        rw [hsame]
        simp [evalLin]

/-! ## OptimizationProblemToQubo -/

namespace OptimizationProblemToQubo

/-- Modelled from the spec: the convenience converter combining
`IntegerToBinaryConverter` and `PenalizeLinearEqualityConstraints`
(and not `InequalityToEqualityConverter`), threading the integer-encoding
state so that decode can invert the integer-to-binary mapping. -/
def encode (m : Model) : Except ConvError (Model × IntEncState) :=
  (PenalizeLinearEqualityConstraints.encode
      PenalizeLinearEqualityConstraints.defaultPenalty
      (IntegerToBinaryConverter.encode m).encoded).map
    (fun q => (q, IntegerToBinaryConverter.encode m))

/-- Modelled from the spec: the combined converter's decode is exactly the
integer-to-binary decode; penalization adds no variables, so it needs no
inverse of its own. -/
def decode (st : IntEncState) (sol : List ℚ) : Except ConvError (List ℚ × ℚ) :=
  decodeVec st sol

end OptimizationProblemToQubo

/-- C6: the combined QUBO converter's encode is the integer-to-binary
encode followed by the penalizer with the default penalty (no
inequality-to-equality step), its decode is exactly the shared
integer-to-binary decode, and whenever it succeeds the produced model has
exactly the integer-encoded variable set — penalization never changes the
variable list, so decode needs to invert only the integer-to-binary map. -/
theorem qubo_composition (m : Model) (st : IntEncState) (sol : List ℚ) :
    (OptimizationProblemToQubo.encode m =
      (PenalizeLinearEqualityConstraints.encode
          PenalizeLinearEqualityConstraints.defaultPenalty
          (IntegerToBinaryConverter.encode m).encoded).map
        (fun q => (q, IntegerToBinaryConverter.encode m))) ∧
    (OptimizationProblemToQubo.decode st sol = decodeVec st sol) ∧
    (∀ M mm p, PenalizeLinearEqualityConstraints.encode M mm = Except.ok p →
      p.vars = mm.vars) ∧
    (∀ q st2, OptimizationProblemToQubo.encode m = Except.ok (q, st2) →
      st2 = IntegerToBinaryConverter.encode m ∧
        q.vars = (IntegerToBinaryConverter.encode m).encoded.vars ∧
        q.vars = expandVars m.vars) := by
  have hpvars : ∀ M mm p, PenalizeLinearEqualityConstraints.encode M mm = Except.ok p →
      p.vars = mm.vars := by
    intro M mm p h
    unfold PenalizeLinearEqualityConstraints.encode at h
    by_cases hc : mm.constraints.all (fun c => c.sense == CSense.eq)
    · rw [if_pos hc] at h
      injection h with h
      rw [← h]
      rfl
    · rw [if_neg hc] at h
      exact Except.noConfusion h
  refine ⟨rfl, rfl, hpvars, ?_⟩
  intro q st2 h
  unfold OptimizationProblemToQubo.encode at h
  cases hp : PenalizeLinearEqualityConstraints.encode
      PenalizeLinearEqualityConstraints.defaultPenalty
      (IntegerToBinaryConverter.encode m).encoded with
  | ok p =>
    rw [hp] at h
    simp only [Except.map] at h
    injection h with h
    have h1 : p = q ∧ IntegerToBinaryConverter.encode m = st2 := by
      constructor
      · exact congrArg Prod.fst h
      · exact congrArg Prod.snd h
    obtain ⟨rfl, rfl⟩ := h1
    exact ⟨rfl, (hpvars _ _ _ hp).symm ▸ rfl, hpvars _ _ _ hp⟩
  | error e =>
    rw [hp] at h
    simp only [Except.map] at h
    exact Except.noConfusion h

/-- Witness for C6: the composition applied to the concrete model
`penEx`, whose penalizer step succeeds. -/
theorem qubo_composition_witness :
    IntegerToBinaryConverter.encode penEx = IntegerToBinaryConverter.encode penEx ∧
      (penalizedModel PenalizeLinearEqualityConstraints.defaultPenalty
          (IntegerToBinaryConverter.encode penEx).encoded).vars =
        (IntegerToBinaryConverter.encode penEx).encoded.vars ∧
      (penalizedModel PenalizeLinearEqualityConstraints.defaultPenalty
          (IntegerToBinaryConverter.encode penEx).encoded).vars =
        expandVars penEx.vars :=
  (qubo_composition penEx (IntegerToBinaryConverter.encode penEx) []).2.2.2
    (penalizedModel PenalizeLinearEqualityConstraints.defaultPenalty
      (IntegerToBinaryConverter.encode penEx).encoded)
    (IntegerToBinaryConverter.encode penEx) rfl

/-! ## The notebook's concrete scenario (C9) -/

/-- The notebook's toy model: maximize `2x + y + z` subject to
`x + y + z ≤ 5`, binary `x, y`, integer `z ∈ [0, 7]`. -/
def opC9 : Model :=
  { vars := [Variable.mk "x" VarKind.binary 0 1, Variable.mk "y" VarKind.binary 0 1,
             Variable.mk "z" VarKind.integer 0 7]
    objSense := ObjSense.maximize
    objective := { quad := [], lin := [("x", 2), ("y", 1), ("z", 1)], const := 0 }
    constraints := [Constraint.mk "xyz" [("x", 1), ("y", 1), ("z", 1)] CSense.le 5] }

/-- The inequality constraint row of `opC9`. -/
def opC9Con : Constraint :=
  Constraint.mk "xyz" [("x", 1), ("y", 1), ("z", 1)] CSense.le 5

/-- The notebook's model after `InequalityToEqualityConverter`: the slack
`xyz@int_slack ∈ [0, 5]` turns the row into an equality. -/
def m1C9 : Model :=
  { vars := [Variable.mk "x" VarKind.binary 0 1, Variable.mk "y" VarKind.binary 0 1,
             Variable.mk "z" VarKind.integer 0 7,
             Variable.mk "xyz@int_slack" VarKind.integer 0 5]
    objSense := ObjSense.maximize
    objective := { quad := [], lin := [("x", 2), ("y", 1), ("z", 1)], const := 0 }
    constraints := [Constraint.mk "xyz"
      [("x", 1), ("y", 1), ("z", 1), ("xyz@int_slack", 1)] CSense.eq 5] }

/-- The solver's bit vector for the encoded model
(`x, y, z@0, z@1, z@2, xyz@int_slack@0, @1, @2`). -/
def solC9 : List ℚ :=
  [1, 1, 1, 1, 0, 0, 0, 0]

/-- The notebook's optimal assignment `x = 1, y = 1, z = 3`. -/
def aStar : Assign :=
  fun x => if x = "x" then 1 else if x = "y" then 1 else if x = "z" then 3 else 0

theorem clog_two_eight : Nat.clog 2 8 = 3 := by
  rw [Nat.clog_of_two_le (by norm_num) (by norm_num)]
  norm_num
  rw [Nat.clog_of_two_le (by norm_num) (by norm_num)]
  norm_num
  rw [Nat.clog_of_two_le (by norm_num) (by norm_num)]
  norm_num

theorem clog_two_six : Nat.clog 2 6 = 3 := by
  rw [Nat.clog_of_two_le (by norm_num) (by norm_num)]
  norm_num
  rw [Nat.clog_of_two_le (by norm_num) (by norm_num)]
  norm_num
  rw [Nat.clog_of_two_le (by norm_num) (by norm_num)]
  norm_num

theorem bcCoeffs_seven : bcCoeffs 7 = [1, 2, 4] := by
  unfold bcCoeffs
  rw [show (7:ℕ) + 1 = 8 from rfl, clog_two_eight]
  decide

theorem bcCoeffs_five : bcCoeffs 5 = [1, 2, 2] := by
  unfold bcCoeffs
  rw [show (5:ℕ) + 1 = 6 from rfl, clog_two_six]
  decide

theorem varReps_z :
    varReps (Variable.mk "z" VarKind.integer 0 7) =
      [("z@0", 1), ("z@1", 2), ("z@2", 4)] := by
  rw [show varReps (Variable.mk "z" VarKind.integer 0 7) =
    repsAux "z" 0 (bcCoeffs 7) from rfl, bcCoeffs_seven]
  decide

theorem varReps_slack :
    varReps (Variable.mk "xyz@int_slack" VarKind.integer 0 5) =
      [("xyz@int_slack@0", 1), ("xyz@int_slack@1", 2), ("xyz@int_slack@2", 2)] := by
  rw [show varReps (Variable.mk "xyz@int_slack" VarKind.integer 0 5) =
    repsAux "xyz@int_slack" 0 (bcCoeffs 5) from rfl, bcCoeffs_five]
  decide

/-- The encoded variable list for the notebook scenario. -/
def encVarsC9 : List Variable :=
  [Variable.mk "x" VarKind.binary 0 1, Variable.mk "y" VarKind.binary 0 1,
   mkBinVar "z@0", mkBinVar "z@1", mkBinVar "z@2",
   mkBinVar "xyz@int_slack@0", mkBinVar "xyz@int_slack@1", mkBinVar "xyz@int_slack@2"]

theorem slackVar_C9 :
    slackVar opC9.vars opC9Con = Variable.mk "xyz@int_slack" VarKind.integer 0 5 := by
  have hub : opC9Con.rhs - linLo opC9.vars opC9Con.lin = 5 := by
    simp [linLo, varBounds, findVar, opC9, opC9Con]
  show Variable.mk (slackName opC9.vars opC9Con)
    (if slackIsInt opC9.vars opC9Con then VarKind.integer else VarKind.continuous)
    0 (opC9Con.rhs - linLo opC9.vars opC9Con.lin) = _
  rw [hub]
  rfl

theorem expandVars_C9 : expandVars m1C9.vars = encVarsC9 := by
  show (if VarKind.binary = VarKind.integer
      then (varReps (Variable.mk "x" VarKind.binary 0 1)).map (fun r => mkBinVar r.1)
      else [Variable.mk "x" VarKind.binary 0 1]) ++
    ((if VarKind.binary = VarKind.integer
      then (varReps (Variable.mk "y" VarKind.binary 0 1)).map (fun r => mkBinVar r.1)
      else [Variable.mk "y" VarKind.binary 0 1]) ++
    ((if VarKind.integer = VarKind.integer
      then (varReps (Variable.mk "z" VarKind.integer 0 7)).map (fun r => mkBinVar r.1)
      else [Variable.mk "z" VarKind.integer 0 7]) ++
    ((if VarKind.integer = VarKind.integer
      then (varReps (Variable.mk "xyz@int_slack" VarKind.integer 0 5)).map
        (fun r => mkBinVar r.1)
      else [Variable.mk "xyz@int_slack" VarKind.integer 0 5]) ++ []))) = encVarsC9
  rw [varReps_z, varReps_slack]
  decide

theorem mkRecord_C9 :
    mkRecord m1C9.vars =
      [("z", [("z@0", 1), ("z@1", 2), ("z@2", 4)]),
       ("xyz@int_slack",
        [("xyz@int_slack@0", 1), ("xyz@int_slack@1", 2), ("xyz@int_slack@2", 2)])] := by
  show (if VarKind.binary = VarKind.integer
      then [("x", varReps (Variable.mk "x" VarKind.binary 0 1))] else []) ++
    ((if VarKind.binary = VarKind.integer
      then [("y", varReps (Variable.mk "y" VarKind.binary 0 1))] else []) ++
    ((if VarKind.integer = VarKind.integer
      then [("z", varReps (Variable.mk "z" VarKind.integer 0 7))] else []) ++
    ((if VarKind.integer = VarKind.integer
      then [("xyz@int_slack", varReps (Variable.mk "xyz@int_slack" VarKind.integer 0 5))]
      else []) ++ []))) = _
  rw [varReps_z, varReps_slack]
  decide

theorem decode_C9 :
    decodeVec (IntegerToBinaryConverter.encode m1C9) solC9 =
      Except.ok ([1, 1, 3, 0], 6) := by
  unfold decodeVec
  rw [show (IntegerToBinaryConverter.encode m1C9).encoded.vars = encVarsC9
      from expandVars_C9,
    show (IntegerToBinaryConverter.encode m1C9).rc =
      [("z", [("z@0", 1), ("z@1", 2), ("z@2", 4)]),
       ("xyz@int_slack",
        [("xyz@int_slack@0", 1), ("xyz@int_slack@1", 2), ("xyz@int_slack@2", 2)])]
      from mkRecord_C9,
    if_pos (by decide : solC9.length = encVarsC9.length)]
  show Except.ok
      (m1C9.vars.map (fun v => decodeAssign _ (toAssign (encVarsC9.map _) solC9) v.name),
        m1C9.objective.eval (decodeAssign _ (toAssign (encVarsC9.map _) solC9))) = _
  simp [decodeAssign, repsOf, toAssign, lookupQ, List.zip, List.zipWith, evalLin,
    QuadExpr.eval, evalQuadTerms, m1C9, solC9, encVarsC9, mkBinVar]
  norm_num

/-- C9: in the notebook's concrete scenario (`max 2x+y+z` s.t.
`x+y+z ≤ 5`, binary `x,y`, integer `z ∈ [0,7]`): the inequality converter
introduces exactly the slack `xyz@int_slack` with bounds `[0, 5]`; the
integer converter encodes the `U = 7` variable `z` with three binaries of
coefficients `1, 2, 4`; decoding the solver's bit vector yields
`([1, 1, 3, 0], 6)`; and `x = 1, y = 1, z = 3` is feasible and optimal
with objective value 6. -/
theorem concrete_scenario :
    InequalityToEqualityConverter.encode opC9 = m1C9 ∧
      varReps (Variable.mk "z" VarKind.integer 0 7) =
        [("z@0", 1), ("z@1", 2), ("z@2", 4)] ∧
      decodeVec (IntegerToBinaryConverter.encode m1C9) solC9 =
        Except.ok ([1, 1, 3, 0], 6) ∧
      opC9.feasible aStar ∧
      opC9.objective.eval aStar = 6 ∧
      ∀ a : Assign, opC9.feasible a → opC9.objective.eval a ≤ 6 := by
  refine ⟨?_, varReps_z, decode_C9, ⟨?_, ?_⟩, ?_, ?_⟩
  · show Model.mk (opC9.vars ++ [slackVar opC9.vars opC9Con]) ObjSense.maximize
      opC9.objective
      [Constraint.mk "xyz"
        ([("x", 1), ("y", 1), ("z", 1)] ++ [(slackName opC9.vars opC9Con, 1)])
        CSense.eq 5] = m1C9
    rw [slackVar_C9]
    rfl
  · intro v hv
    simp only [opC9, List.mem_cons, List.not_mem_nil, or_false] at hv
    rcases hv with rfl | rfl | rfl
    · exact ⟨by show (0:ℚ) ≤ 1; norm_num, by show (1:ℚ) ≤ 1; norm_num,
        fun _ => Or.inr rfl, fun h => VarKind.noConfusion h⟩
    · exact ⟨by show (0:ℚ) ≤ 1; norm_num, by show (1:ℚ) ≤ 1; norm_num,
        fun _ => Or.inr rfl, fun h => VarKind.noConfusion h⟩
    · exact ⟨by show (0:ℚ) ≤ 3; norm_num, by show (3:ℚ) ≤ 7; norm_num,
        fun h => VarKind.noConfusion h, fun _ => rfl⟩
  · intro c hc
    simp only [opC9, List.mem_singleton] at hc
    subst hc
    show evalLin [("x", 1), ("y", 1), ("z", 1)] aStar ≤ 5
    have he : evalLin [("x", 1), ("y", 1), ("z", 1)] aStar = 5 := by
      show (1:ℚ) * 1 + ((1:ℚ) * 1 + ((1:ℚ) * 3 + 0)) = 5
      norm_num
    rw [he]
  · show evalQuadTerms [] aStar + evalLin [("x", 2), ("y", 1), ("z", 1)] aStar + 0 = 6
    show (0:ℚ) + ((2:ℚ) * 1 + ((1:ℚ) * 1 + ((1:ℚ) * 3 + 0))) + 0 = 6
    norm_num
  · intro a hfe
    have hx : a "x" ≤ 1 :=
      (hfe.1 (Variable.mk "x" VarKind.binary 0 1) (by simp [opC9])).2.1
    have hcon := hfe.2 (Constraint.mk "xyz" [("x", 1), ("y", 1), ("z", 1)] CSense.le 5)
      (by simp [opC9])
    have hcon2 : a "x" + a "y" + a "z" ≤ 5 := by
      have hc := hcon
      simp only [Constraint.sat, evalLin, List.map_cons, List.map_nil, List.sum_cons,
        List.sum_nil] at hc
      linarith [hc]
    have hobj : opC9.objective.eval a = 2 * a "x" + a "y" + a "z" := by
      show evalQuadTerms [] a + evalLin [("x", 2), ("y", 1), ("z", 1)] a + 0 = _
      simp only [evalQuadTerms, evalLin, List.map_cons, List.map_nil, List.sum_cons,
        List.sum_nil, List.map_nil]
      ring
    rw [hobj]
    linarith [hx, hcon2]

/-- Witness for C9: the optimality bound applied at the concrete optimal
assignment, whose feasibility the theorem itself supplies. -/
theorem concrete_scenario_witness : opC9.objective.eval aStar ≤ 6 :=
  concrete_scenario.2.2.2.2.2 aStar concrete_scenario.2.2.2.1

theorem substLin_C9 :
    substLin (mkRecord m1C9.vars)
        [("x", 1), ("y", 1), ("z", 1), ("xyz@int_slack", 1)] =
      [("x", 1), ("y", 1), ("z@0", 1), ("z@1", 2), ("z@2", 4),
       ("xyz@int_slack@0", 1), ("xyz@int_slack@1", 2), ("xyz@int_slack@2", 2)] := by
  rw [mkRecord_C9]
  simp [substLin, repsOf]

/-- Witness for C2: the round trip applied to the notebook's 4-variable
model and the solver's bit vector. -/
theorem intToBinary_roundtrip_witness :
    decodeVec (IntegerToBinaryConverter.encode m1C9) solC9 =
        Except.ok
          (m1C9.vars.map (fun v => IntegerToBinaryConverter.decoded m1C9 solC9 v.name),
            m1C9.objective.eval (IntegerToBinaryConverter.decoded m1C9 solC9)) ∧
      m1C9.feasible (IntegerToBinaryConverter.decoded m1C9 solC9) ∧
      m1C9.objective.eval (IntegerToBinaryConverter.decoded m1C9 solC9) =
        (IntegerToBinaryConverter.encode m1C9).encoded.objective.eval
          (IntegerToBinaryConverter.solAssign m1C9 solC9) := by
  have hvars : (IntegerToBinaryConverter.encode m1C9).encoded.vars = encVarsC9 :=
    expandVars_C9
  have ha : IntegerToBinaryConverter.solAssign m1C9 solC9 =
      toAssign (encVarsC9.map (fun v => v.name)) solC9 := by
    unfold IntegerToBinaryConverter.solAssign
    rw [hvars]
  refine intToBinary_roundtrip m1C9 solC9 (by decide) (by decide) ?_ ?_
  · rw [hvars]
    decide
  · constructor
    · intro v hv
      rw [hvars] at hv
      rw [ha]
      simp only [encVarsC9, List.mem_cons, List.not_mem_nil, or_false] at hv
      rcases hv with rfl | rfl | rfl | rfl | rfl | rfl | rfl | rfl <;> decide
    · intro c hc
      have hcons : (IntegerToBinaryConverter.encode m1C9).encoded.constraints =
          [Constraint.mk "xyz"
            [("x", 1), ("y", 1), ("z@0", 1), ("z@1", 2), ("z@2", 4),
             ("xyz@int_slack@0", 1), ("xyz@int_slack@1", 2), ("xyz@int_slack@2", 2)]
            CSense.eq 5] := by
        show [Constraint.mk "xyz"
          (substLin (mkRecord m1C9.vars)
            [("x", 1), ("y", 1), ("z", 1), ("xyz@int_slack", 1)]) CSense.eq 5] = _
        rw [substLin_C9]
      rw [hcons] at hc
      simp only [List.mem_singleton] at hc
      subst hc
      rw [ha]
      show evalLin
        [("x", 1), ("y", 1), ("z@0", 1), ("z@1", 2), ("z@2", 4),
         ("xyz@int_slack@0", 1), ("xyz@int_slack@1", 2), ("xyz@int_slack@2", 2)]
        (toAssign (encVarsC9.map (fun v => v.name)) solC9) = 5
      simp [evalLin, toAssign, lookupQ, List.zip, List.zipWith, encVarsC9, solC9,
        mkBinVar]
      norm_num

/-- Witness for C5: the slack-range facts at the notebook constraint
`x + y + z ≤ 5` under the all-zeros assignment. -/
theorem ineqToEq_spec_witness :
    (0 ≤ opC9Con.rhs - evalLin opC9Con.lin (fun _ => 0) ∧
        opC9Con.rhs - evalLin opC9Con.lin (fun _ => 0) ≤
          (slackVar opC9.vars opC9Con).ub) ∧
      evalLin (opC9Con.lin ++ [(slackName opC9.vars opC9Con, 1)])
        (fun x => if x = slackName opC9.vars opC9Con
                  then opC9Con.rhs - evalLin opC9Con.lin (fun _ => 0)
                  else 0) = opC9Con.rhs :=
  (((ineqToEq_spec opC9).2.2.2 opC9Con (List.mem_singleton.mpr rfl)).2
    (fun _ => 0) (by decide) (by decide)).1 rfl
    (by
      show (1:ℚ) * 0 + ((1:ℚ) * 0 + ((1:ℚ) * 0 + 0)) ≤ 5
      norm_num)

end QiskitOpt
